import Mathlib

/-!
Verification of the polygon/bezier node-editing core of
`src/tiled/editpolygontool.cpp` (functions `deleteNodes`, `joinPolygonNodes`,
`splitPolygonSegments`, `EditPolygonTool::joinNodes`,
`EditPolygonTool::splitSegments`).

Points (`QPointF`) are modelled as pairs of rationals; `QPolygonF` as
`List Point` with the `QVector` operations `remove(i, count)`,
`replace(i, v)`, `insert(i, v)`, `append(v)` and `at(i)`; a `RangeSet<int>`
as an ascending list of inclusive ranges satisfying the `RangeSet`
invariant (disjoint, non-adjacent, sorted), which is how the algorithms
iterate it (from `begin()` to `end()`).
-/

/-- A 2D point with rational coordinates (models `QPointF`). -/
abbrev Point := ℚ × ℚ

/-- The zero point, used as the default for (proven-in-bounds) accesses. -/
def pzero : Point := (0, 0)

/-- Componentwise addition (models `QPointF::operator+`). -/
def padd (p q : Point) : Point := (p.1 + q.1, p.2 + q.2)

/-- Division of a point by a scalar (models `QPointF::operator/`). -/
def pdiv (p : Point) (k : ℚ) : Point := (p.1 / k, p.2 / k)

/-- Sum of a list of points, used for the average-point accumulations. -/
def psum (l : List Point) : Point := l.foldr padd pzero

/-- An inclusive index range, as yielded by `RangeSet<int>::Range`
(`first()`, `last()`, `length() = last - first + 1`). -/
structure Range where
  first : ℕ
  last : ℕ
deriving DecidableEq, Repr

/-- `RangeSet<int>::Range::length()`. -/
def Range.length (r : Range) : ℕ := r.last - r.first + 1

/-- The `RangeSet` invariant on the ascending list of ranges: each range is
non-empty (`first ≤ last`) and consecutive ranges are disjoint and
non-adjacent (`a.last + 1 < b.first`). -/
def rangeSetWF : List Range → Bool
  | [] => true
  | [a] => decide (a.first ≤ a.last)
  | a :: b :: rest =>
      decide (a.first ≤ a.last) && decide (a.last + 1 < b.first) &&
        rangeSetWF (b :: rest)

/-- All ranges lie within the index bounds of a sequence of length `n`. -/
def rangesBounded (rs : List Range) (n : ℕ) : Bool :=
  rs.all fun r => decide (r.last < n)

/-- `QVector::remove(i, count)`. -/
def qremove (l : List Point) (i count : ℕ) : List Point :=
  l.take i ++ l.drop (i + count)

/-- `QVector::replace(i, v)`. -/
def qreplace (l : List Point) (i : ℕ) (v : Point) : List Point :=
  l.set i v

/-- `QVector::at(i)` (in-bounds reads only; the default is irrelevant for
the proven-in-bounds accesses of the algorithms). -/
def qat (l : List Point) (i : ℕ) : Point := l.getD i pzero

/-- The points `polygon.at(r.first), …, polygon.at(r.first + k)` read by the
`for (int i = first; i <= last; i++)` accumulation loops, shifted down by
`off` (the code reads `polygon.at(i - indexOffset)`). -/
def rangeReads (polygon : List Point) (off : ℕ) (r : Range) : List Point :=
  (List.range r.length).map fun k => qat polygon (r.first + k - off)

/-- One iteration of the interior-range loop of `joinPolygonNodes`
(lines 1061–1072): average the reads at `i - indexOffset` for
`i ∈ [first, last]`, remove `length - 1` slots after the range's
(offset) start and replace the start with the average. -/
def joinRangeStep (polygon : List Point) (off : ℕ) (r : Range)
    (result : List Point) : List Point :=
  let averagePoint := pdiv (psum (rangeReads polygon off r)) (r.length : ℚ)
  let result := qremove result (r.first + 1 - off) (r.length - 1)
  qreplace result (r.first - off) averagePoint

/-- `joinPolygonNodes(polygon, indexRanges, closed)` (lines 1006–1075),
with `indexRanges` given as the ascending list of ranges the `RangeSet`
iterates. The interior loop runs from the last unconsumed range down to
the (possibly advanced) first range; the wrap-around branch fires when the
first range starts at 0 and the last ends at `n - 1`. -/
def joinPolygonNodes (polygon : List Point) (rs : List Range)
    (closed : Bool) : List Point :=
  match rs with
  | [] => polygon
  | firstRange :: rest =>
    let n := polygon.length
    if n < 3 then polygon
    else
      let lastRange := rest.getLastD firstRange
      if firstRange.first = 0 ∧ lastRange.last = n - 1 then
        if rest.isEmpty then polygon
        else if closed then
          let averagePoint :=
            pdiv (padd (psum (rangeReads polygon 0 firstRange))
                       (psum (rangeReads polygon 0 lastRange)))
              ((firstRange.length + lastRange.length : ℕ) : ℚ)
          let result := qremove polygon lastRange.first lastRange.length
          let result := qremove result 1 (firstRange.length - 1)
          let result := qreplace result 0 averagePoint
          let indexOffset := firstRange.length - 1
          rest.dropLast.foldr (joinRangeStep polygon indexOffset) result
        else
          (firstRange :: rest).foldr (joinRangeStep polygon 0) polygon
      else
        (firstRange :: rest).foldr (joinRangeStep polygon 0) polygon

/-- The inner `for (int i = it.last(); i > it.first(); --i)` loop of
`splitPolygonSegments` (lines 1112–1117): for `i = first + k` down to
`first + 1`, insert the midpoint of `result.at(i)` and `result.at(i-1)`
at position `i`. -/
def splitSteps (first : ℕ) : ℕ → List Point → List Point
  | 0, result => result
  | k + 1, result =>
      let i := first + (k + 1)
      let splitPoint := pdiv (padd (qat result i) (qat result (i - 1))) 2
      splitSteps first k (result.insertIdx i splitPoint)

/-- `splitPolygonSegments(polygon, indexRanges, closed)` (lines 1090–1120).
The seam midpoint of first and last point is appended when closed and the
selection touches both ends; then every range is processed in descending
order. -/
def splitPolygonSegments (polygon : List Point) (rs : List Range)
    (closed : Bool) : List Point :=
  match rs with
  | [] => polygon
  | firstRange :: rest =>
    let n := polygon.length
    let result := polygon
    let result :=
      if closed then
        let lastRange := rest.getLastD firstRange
        if firstRange.first = 0 ∧ lastRange.last = n - 1 then
          result ++ [pdiv (padd (qat result 0) (qat result (n - 1))) 2]
        else result
      else result
    (firstRange :: rest).foldr
      (fun r res => splitSteps r.first (r.last - r.first) res) result

/-- The `newPolygon.remove(it.first(), it.length())` step of
`EditPolygonTool::deleteNodes` (lines 973–974). -/
def removeRange (poly : List Point) (r : Range) : List Point :=
  qremove poly r.first r.length

/-- The back-to-front removal loop of `EditPolygonTool::deleteNodes`
(lines 968–979): ranges are processed strictly descending, each removing
its slice `[first, first + length)`. -/
def deletePolygonNodes (poly : List Point) (rs : List Range) : List Point :=
  rs.foldr (fun r p => removeRange p r) poly

/-- Index `i` is covered by some range of the set. -/
def coveredB (rs : List Range) (i : ℕ) : Bool :=
  rs.any fun r => decide (r.first ≤ i) && decide (i ≤ r.last)

/-- Specification-level description of deletion: keep exactly the points at
unselected indices, in their original relative order. -/
def keepUnselected (poly : List Point) (rs : List Range) : List Point :=
  ((List.range poly.length).filter fun i => !coveredB rs i).map (qat poly)

/-- The pair `(i - 1, i)` lies strictly inside some selected range,
i.e. some range `r` has `r.first < i ≤ r.last`. -/
def pairSelB (rs : List Range) (i : ℕ) : Bool :=
  rs.any fun r => decide (r.first < i) && decide (i ≤ r.last)

/-- Specification-level description of segment splitting (no seam point):
every original point is kept, and a midpoint of points `i - 1` and `i` is
inserted before point `i` whenever that pair lies inside a selected range. -/
def splitSpec (poly : List Point) (rs : List Range) : List Point :=
  (List.range poly.length).flatMap fun i =>
    (if pairSelB rs i then [pdiv (padd (qat poly (i - 1)) (qat poly i)) 2]
     else []) ++ [qat poly i]

/-- The `MapObject::Shape` values relevant to the node-editing operations. -/
inductive ShapeKind where
  | Polyline | Polygon | Bezierline | Bezierloop
deriving DecidableEq, Repr

/-- The per-object geometry the tool reads and commits: the main polygon
and the two control-point sequences (meaningful for bezier kinds). -/
structure MapObject where
  shape : ShapeKind
  polygon : List Point
  leftControlPoints : List Point
  rightControlPoints : List Point
deriving DecidableEq, Repr

/-- `closed` as computed by `joinNodes`/`splitSegments` (lines 1151, 1196):
polygons and bezier loops are closed. -/
def isClosedShape (s : ShapeKind) : Bool :=
  s = ShapeKind.Polygon || s = ShapeKind.Bezierloop

/-- The curve-typed check `shape() == Bezierline || shape() == Bezierloop`
used by `deleteNodes` and `joinNodes`. -/
def isBezierShape (s : ShapeKind) : Bool :=
  s = ShapeKind.Bezierline || s = ShapeKind.Bezierloop

/-- Outcome of the per-object part of `EditPolygonTool::deleteNodes`:
either the whole object is removed, or a new geometry is committed. -/
inductive DeleteOutcome where
  | removeObject
  | committed (o : MapObject)
deriving DecidableEq, Repr

/-- Per-object behaviour of `EditPolygonTool::deleteNodes` (lines 955–996):
remove the ranges back to front from the polygon (and, for bezier kinds,
from both control-point sequences); if fewer than 2 points remain the
object itself is removed instead of committing the new geometry. -/
def deleteNodesObject (o : MapObject) (rs : List Range) : DeleteOutcome :=
  let newPolygon := deletePolygonNodes o.polygon rs
  let bez := isBezierShape o.shape
  let newLeft := if bez then deletePolygonNodes o.leftControlPoints rs
                 else o.leftControlPoints
  let newRight := if bez then deletePolygonNodes o.rightControlPoints rs
                  else o.rightControlPoints
  if newPolygon.length < 2 then DeleteOutcome.removeObject
  else DeleteOutcome.committed
    { o with polygon := newPolygon, leftControlPoints := newLeft,
             rightControlPoints := newRight }

/-- Per-object behaviour of `EditPolygonTool::joinNodes` (lines 1145–1169):
the polygon is joined, and the change is committed only when it shrank; for
bezier kinds both control-point sequences are joined with the same ranges
and closedness. -/
def joinNodesObject (o : MapObject) (rs : List Range) : MapObject :=
  let closed := isClosedShape o.shape
  let newPolygon := joinPolygonNodes o.polygon rs closed
  if newPolygon.length < o.polygon.length then
    if isBezierShape o.shape then
      { o with polygon := newPolygon,
               leftControlPoints :=
                 joinPolygonNodes o.leftControlPoints rs closed,
               rightControlPoints :=
                 joinPolygonNodes o.rightControlPoints rs closed }
    else { o with polygon := newPolygon }
  else o

/-- Per-object behaviour of `EditPolygonTool::splitSegments`
(lines 1185–1221), including the control-point condition exactly as
written in the source (line 1197: `Bezierline || Bezierline`). -/
def splitSegmentsObject (o : MapObject) (rs : List Range) : MapObject :=
  let closed := isClosedShape o.shape
  let newPolygon := splitPolygonSegments o.polygon rs closed
  if o.polygon.length < newPolygon.length then
    if o.shape = ShapeKind.Bezierline ∨ o.shape = ShapeKind.Bezierline then
      { o with polygon := newPolygon,
               leftControlPoints :=
                 splitPolygonSegments o.leftControlPoints rs closed,
               rightControlPoints :=
                 splitPolygonSegments o.rightControlPoints rs closed }
    else { o with polygon := newPolygon }
  else o

/-! ### General lemmas about the list operations -/

theorem sublist_insertIdx (l : List Point) (i : ℕ) (v : Point) :
    l.Sublist (l.insertIdx i v) := by
  induction l generalizing i with
  | nil =>
    cases i with
    | zero => simp [List.insertIdx_zero]
    | succ n => simp [List.insertIdx]
  | cons a t ih =>
    cases i with
    | zero => simp [List.insertIdx_zero]
    | succ n =>
      rw [List.insertIdx_succ_cons]
      exact List.Sublist.cons₂ a (ih n)

theorem sublist_splitSteps (first : ℕ) (k : ℕ) (res : List Point) :
    res.Sublist (splitSteps first k res) := by
  induction k generalizing res with
  | zero => exact List.Sublist.refl res
  | succ m ih =>
    rw [splitSteps]
    exact (sublist_insertIdx res _ _).trans (ih _)

theorem sublist_splitFold (rs : List Range) (res : List Point) :
    res.Sublist
      (rs.foldr (fun r acc => splitSteps r.first (r.last - r.first) acc)
        res) := by
  induction rs with
  | nil => exact List.Sublist.refl res
  | cons r t ih =>
    exact ih.trans (sublist_splitSteps r.first (r.last - r.first) _)

/-! ### C9: split only inserts points -/

/-- C9: for every point sequence and every Range-Set, the output of
`splitPolygonSegments` contains the entire input as a subsequence in the
original order, so its length is at least the input length. -/
theorem split_contains_input_as_sublist (poly : List Point)
    (rs : List Range) (closed : Bool) :
    poly.Sublist (splitPolygonSegments poly rs closed) ∧
      poly.length ≤ (splitPolygonSegments poly rs closed).length := by
  have h : poly.Sublist (splitPolygonSegments poly rs closed) := by
    cases rs with
    | nil => exact List.Sublist.refl poly
    | cons f rest =>
      rw [splitPolygonSegments]
      by_cases hc : closed = true
      · subst hc
        simp only [if_true]
        by_cases hw : f.first = 0 ∧ (rest.getLastD f).last = poly.length - 1
        · rw [if_pos hw]
          exact (List.sublist_append_left poly _).trans (sublist_splitFold _ _)
        · rw [if_neg hw]
          exact sublist_splitFold _ _
      · rw [Bool.not_eq_true] at hc
        subst hc
        simp only [Bool.false_eq_true, if_false]
        exact sublist_splitFold _ _
  exact ⟨h, h.length_le⟩

/-! ### C2: the interior-range averages after a wrap-around merge -/

/-- C2: after a wrap-around merge (`indexOffset = 1` here), the interior
loop of `joinPolygonNodes` averages `polygon.at(i - indexOffset)`, i.e. the
points one slot below the range, not the range's own original points: on a
closed 7-point sequence with ranges `[0,1]`, `[3,4]`, `[6,6]`, the
replacement for range `[3,4]` is the mean of points 2 and 3, `(5/2, 0)`,
and not the mean of the range's own points 3 and 4, `(7/2, 0)`. -/
theorem join_interior_average_uses_shifted_points :
    joinPolygonNodes
        [(0,0),(1,0),(2,0),(3,0),(4,0),(5,0),(6,0)]
        [⟨0,1⟩,⟨3,4⟩,⟨6,6⟩] true
      = [((7:ℚ)/3,0),(2,0),((5:ℚ)/2,0),(5,0)] ∧
    pdiv (padd ((3:ℚ),(0:ℚ)) ((4:ℚ),(0:ℚ))) 2 = ((7:ℚ)/2, (0:ℚ)) ∧
    (((5:ℚ)/2, (0:ℚ)) : Point) ≠ (((7:ℚ)/2, (0:ℚ)) : Point) := by
  refine ⟨?_, ?_, ?_⟩
  · norm_num [joinPolygonNodes, joinRangeStep, rangeReads, psum, padd,
      pdiv, qat, qremove, qreplace, pzero, Range.length, List.range_succ]
  · norm_num [padd, pdiv]
  · norm_num

/-! ### C3: control-point alignment after the three operations -/

/-- C3 fails on the code: `EditPolygonTool::splitSegments` tests
`Bezierline || Bezierline` (line 1197), so for a `Bezierloop` the main
polygon is split but the control-point sequences are not: a 3-node
bezier loop with nodes 0 and 1 selected commits a 4-point polygon while
both control-point sequences keep length 3. -/
theorem split_bezierloop_breaks_alignment :
    (splitSegmentsObject
        ⟨ShapeKind.Bezierloop, [(0,0),(4,0),(0,4)],
          [(1,0),(5,0),(1,4)], [(2,0),(6,0),(2,4)]⟩
        [⟨0,1⟩]).polygon.length = 4 ∧
    (splitSegmentsObject
        ⟨ShapeKind.Bezierloop, [(0,0),(4,0),(0,4)],
          [(1,0),(5,0),(1,4)], [(2,0),(6,0),(2,4)]⟩
        [⟨0,1⟩]).leftControlPoints.length = 3 ∧
    (splitSegmentsObject
        ⟨ShapeKind.Bezierloop, [(0,0),(4,0),(0,4)],
          [(1,0),(5,0),(1,4)], [(2,0),(6,0),(2,4)]⟩
        [⟨0,1⟩]).rightControlPoints.length = 3 := by
  refine ⟨?_, ?_, ?_⟩ <;>
    simp [splitSegmentsObject, splitPolygonSegments, splitSteps,
      isClosedShape, padd, pdiv, qat, pzero, List.insertIdx]

/-! ### C8: the no-op cases of joinPolygonNodes -/

/-- C8 as stated is refuted: a selection that is none of the three listed
no-op cases can still leave the sequence unchanged — on the open 3-point
sequence below, the single length-1 range `[1,1]` is not empty, the
sequence has 3 points, and the range does not span the whole sequence,
yet `joinPolygonNodes` returns the input unchanged. -/
theorem join_noop_not_exhaustive :
    ([⟨1,1⟩] : List Range) ≠ [] ∧
    ¬(([(0,0),(10,0),(10,10)] : List Point).length < 3) ∧
    ([⟨1,1⟩] : List Range) ≠ [⟨0,2⟩] ∧
    joinPolygonNodes [(0,0),(10,0),(10,10)] [⟨1,1⟩] false
      = [(0,0),(10,0),(10,10)] := by
  refine ⟨by simp, by simp, by simp, ?_⟩
  norm_num [joinPolygonNodes, joinRangeStep, rangeReads, psum, padd,
    pdiv, qat, qremove, qreplace, pzero, Range.length, List.range_succ]

/-- C8 amended: `joinPolygonNodes` returns its input unchanged in (at
least) the three listed cases — empty Range-Set, fewer than 3 points, or a
single range spanning the whole sequence — for both open and closed
shapes; since the result then has the same size as the input, the caller
performs no commit in these cases. -/
theorem join_noop_cases (poly : List Point) (rs : List Range)
    (closed : Bool)
    (h : rs = [] ∨ poly.length < 3 ∨ rs = [⟨0, poly.length - 1⟩]) :
    joinPolygonNodes poly rs closed = poly := by
  rcases h with h | h | h
  · subst h; rfl
  · cases rs with
    | nil => rfl
    | cons f rest => rw [joinPolygonNodes, if_pos h]
  · subst h
    rw [joinPolygonNodes]
    by_cases hn : poly.length < 3
    · rw [if_pos hn]
    · rw [if_neg hn]
      simp

/-- Witness for the amended C8 at a concrete input: the whole-sequence
single range on a closed 3-point sequence is a no-op. -/
theorem join_noop_cases_witness :
    joinPolygonNodes [(0,0),(10,0),(10,10)] [⟨0,2⟩] true
      = [(0,0),(10,0),(10,10)] :=
  join_noop_cases [(0,0),(10,0),(10,10)] [⟨0,2⟩] true
    (Or.inr (Or.inr rfl))

/-! ### Range-set well-formedness facts -/

theorem rangeSetWF_cons {f : Range} {rest : List Range}
    (h : rangeSetWF (f :: rest) = true) :
    f.first ≤ f.last ∧ rangeSetWF rest = true := by
  cases rest with
  | nil => simpa [rangeSetWF] using h
  | cons b t =>
    rw [rangeSetWF] at h
    simp only [Bool.and_eq_true, decide_eq_true_eq] at h
    exact ⟨h.1.1, h.2⟩

theorem rangeSetWF_lower {f : Range} {rest : List Range}
    (h : rangeSetWF (f :: rest) = true) :
    ∀ r ∈ rest, f.last + 1 < r.first := by
  induction rest generalizing f with
  | nil => intro r hr; cases hr
  | cons b t ih =>
    intro r hr
    rw [rangeSetWF] at h
    simp only [Bool.and_eq_true, decide_eq_true_eq] at h
    rcases List.mem_cons.mp hr with hr | hr
    · subst hr; exact h.1.2
    · have hb := (rangeSetWF_cons h.2).1
      have := ih h.2 r hr
      omega

theorem rangesBounded_cons {f : Range} {rest : List Range} {n : ℕ}
    (h : rangesBounded (f :: rest) n = true) :
    f.last < n ∧ rangesBounded rest n = true := by
  simp only [rangesBounded, List.all_cons, Bool.and_eq_true,
    decide_eq_true_eq] at h ⊢
  exact h

/-! ### Coverage facts -/

theorem coveredB_eq_false_of_lt_first {rs : List Range} {i : ℕ}
    (h : ∀ r ∈ rs, i < r.first) : coveredB rs i = false := by
  rw [coveredB, List.any_eq_false]
  intro r hr
  have := h r hr
  simp only [Bool.and_eq_true, decide_eq_true_eq, not_and]
  omega

theorem coveredB_cons_head {f : Range} {rest : List Range} {i : ℕ}
    (h1 : f.first ≤ i) (h2 : i ≤ f.last) :
    coveredB (f :: rest) i = true := by
  simp [coveredB, List.any_cons, h1, h2]

theorem coveredB_cons_high {f : Range} {rest : List Range} {i : ℕ}
    (h : f.last < i) : coveredB (f :: rest) i = coveredB rest i := by
  simp [coveredB, List.any_cons, show ¬(i ≤ f.last) by omega]

/-! ### Reading consecutive indices gives a slice -/

theorem qat_range_eq_take (l : List Point) (k : ℕ) (h : k ≤ l.length) :
    (List.range k).map (qat l) = l.take k := by
  apply List.ext_getElem
  · simp [Nat.min_eq_left h]
  · intro i h1 h2
    simp only [List.getElem_map, List.getElem_range, List.getElem_take]
    have hi : i < l.length := by
      simp only [List.length_map, List.length_range] at h1
      omega
    simp [qat, List.getD, List.getElem?_eq_getElem hi]

/-! ### C7: deletion keeps exactly the unselected points -/

theorem keepUnselected_nil (poly : List Point) :
    keepUnselected poly [] = poly := by
  rw [keepUnselected]
  have : ∀ i ∈ List.range poly.length, (!coveredB [] i) = true := by
    intro i _
    simp [coveredB]
  rw [List.filter_eq_self.mpr this,
    qat_range_eq_take poly poly.length le_rfl, List.take_length]

theorem deletePolygonNodes_eq_keepUnselected (poly : List Point)
    (rs : List Range) (hwf : rangeSetWF rs = true)
    (hb : rangesBounded rs poly.length = true) :
    deletePolygonNodes poly rs = keepUnselected poly rs := by
  induction rs with
  | nil => exact (keepUnselected_nil poly).symm
  | cons f rest ih =>
    obtain ⟨hfl, hwfr⟩ := rangeSetWF_cons hwf
    have hlow := rangeSetWF_lower hwf
    obtain ⟨hbf, hbr⟩ := rangesBounded_cons hb
    set n := poly.length with hn
    set M : List Point :=
      ((List.range' (f.last + 1) (n - (f.last + 1))).filter
        fun i => !coveredB rest i).map (qat poly) with hM
    have hsplit : List.range n
        = List.range (f.last + 1)
          ++ List.range' (f.last + 1) (n - (f.last + 1)) := by
      rw [List.range_eq_range', List.range_eq_range']
      have h1 := List.range'_append 0 (f.last + 1) (n - (f.last + 1)) 1
      simp only [Nat.one_mul, Nat.zero_add] at h1
      rw [h1, show n - (f.last + 1) + (f.last + 1) = n by omega]
    have hkeep_rest : keepUnselected poly rest = poly.take (f.last + 1) ++ M := by
      rw [keepUnselected, ← hn, hsplit, List.filter_append, List.map_append, hM]
      congr 1
      have hid : ∀ i ∈ List.range (f.last + 1), (!coveredB rest i) = true := by
        intro i hi
        rw [List.mem_range] at hi
        have : coveredB rest i = false :=
          coveredB_eq_false_of_lt_first fun r hr => by
            have := hlow r hr; omega
        simp [this]
      rw [List.filter_eq_self.mpr hid, qat_range_eq_take poly (f.last + 1) (by omega)]
    have hsplit2 : List.range (f.last + 1)
        = List.range f.first
          ++ List.range' f.first (f.last + 1 - f.first) := by
      rw [List.range_eq_range', List.range_eq_range']
      have h1 := List.range'_append 0 f.first (f.last + 1 - f.first) 1
      simp only [Nat.one_mul, Nat.zero_add] at h1
      rw [h1, show f.last + 1 - f.first + f.first = f.last + 1 by omega]
    have hkeep_cons : keepUnselected poly (f :: rest) = poly.take f.first ++ M := by
      rw [keepUnselected, ← hn, hsplit, hsplit2, List.filter_append,
        List.filter_append, List.map_append, List.map_append, hM]
      have hid : ∀ i ∈ List.range f.first, (!coveredB (f :: rest) i) = true := by
        intro i hi
        rw [List.mem_range] at hi
        have : coveredB (f :: rest) i = false :=
          coveredB_eq_false_of_lt_first fun r hr => by
            rcases List.mem_cons.mp hr with hr | hr
            · subst hr; omega
            · have := hlow r hr; omega
        simp [this]
      have hnil : (List.range' f.first (f.last + 1 - f.first)).filter
          (fun i => !coveredB (f :: rest) i) = [] := by
        rw [List.filter_eq_nil_iff]
        intro i hi
        rw [List.mem_range'_1] at hi
        rw [coveredB_cons_head (by omega) (by omega)]
        simp
      have hhigh : (List.range' (f.last + 1) (n - (f.last + 1))).filter
            (fun i => !coveredB (f :: rest) i)
          = (List.range' (f.last + 1) (n - (f.last + 1))).filter
            (fun i => !coveredB rest i) := by
        apply List.filter_congr
        intro i hi
        rw [List.mem_range'_1] at hi
        rw [coveredB_cons_high (by omega)]
      rw [List.filter_eq_self.mpr hid, hnil, hhigh,
        qat_range_eq_take poly f.first (by omega)]
      simp
    have hrem : removeRange (poly.take (f.last + 1) ++ M) f
        = poly.take f.first ++ M := by
      rw [removeRange, qremove,
        show f.first + f.length = f.last + 1 by rw [Range.length]; omega]
      have hlen : (poly.take (f.last + 1)).length = f.last + 1 := by
        rw [List.length_take]; omega
      congr 1
      · rw [List.take_append_of_le_length (by omega), List.take_take,
          inf_eq_left.mpr (by omega)]
      · exact List.drop_left' hlen
    calc deletePolygonNodes poly (f :: rest)
        = removeRange (deletePolygonNodes poly rest) f := rfl
      _ = removeRange (keepUnselected poly rest) f := by rw [ih hwfr hbr]
      _ = poly.take f.first ++ M := by rw [hkeep_rest, hrem]
      _ = keepUnselected poly (f :: rest) := hkeep_cons.symm

/-- C7: for every point sequence and every well-formed, in-bounds
Range-Set, the back-to-front removal loop of `deleteNodes` leaves exactly
the points at unselected indices, in their original relative order (the
same function is applied to the control-point sequences of curve-typed
shapes, so the statement covers them as well). -/
theorem delete_keeps_unselected (poly : List Point) (rs : List Range)
    (hwf : rangeSetWF rs = true)
    (hb : rangesBounded rs poly.length = true) :
    deletePolygonNodes poly rs = keepUnselected poly rs :=
  deletePolygonNodes_eq_keepUnselected poly rs hwf hb

/-- Witness for C7: deleting indices 1 and 3 from a 5-point open sequence
leaves the points originally at indices 0, 2 and 4. -/
theorem delete_keeps_unselected_witness :
    rangeSetWF [⟨1,1⟩,⟨3,3⟩] = true ∧
    rangesBounded [⟨1,1⟩,⟨3,3⟩]
      ([(0,0),(1,0),(2,0),(3,0),(4,0)] : List Point).length = true ∧
    deletePolygonNodes [(0,0),(1,0),(2,0),(3,0),(4,0)] [⟨1,1⟩,⟨3,3⟩]
      = keepUnselected [(0,0),(1,0),(2,0),(3,0),(4,0)] [⟨1,1⟩,⟨3,3⟩] ∧
    deletePolygonNodes [(0,0),(1,0),(2,0),(3,0),(4,0)] [⟨1,1⟩,⟨3,3⟩]
      = [(0,0),(2,0),(4,0)] := by
  refine ⟨by decide, by decide,
    delete_keeps_unselected [(0,0),(1,0),(2,0),(3,0),(4,0)] [⟨1,1⟩,⟨3,3⟩]
      (by decide) (by decide), by decide⟩

/-! ### C6: degenerate deletion removes the whole shape -/

/-- C6: when fewer than 2 points survive the selected removals (the
unselected indices number less than 2), `deleteNodes` signals removal of
the whole object (pushes `RemoveMapObject`) instead of committing a 0- or
1-point sequence. -/
theorem delete_degenerate_removes_shape (o : MapObject) (rs : List Range)
    (hwf : rangeSetWF rs = true)
    (hb : rangesBounded rs o.polygon.length = true)
    (hk : ((List.range o.polygon.length).filter
        fun i => !coveredB rs i).length < 2) :
    deleteNodesObject o rs = DeleteOutcome.removeObject := by
  have h2 : (deletePolygonNodes o.polygon rs).length < 2 := by
    rw [deletePolygonNodes_eq_keepUnselected o.polygon rs hwf hb,
      keepUnselected, List.length_map]
    exact hk
  simp [deleteNodesObject, h2]

/-- Witness for C6: deleting indices 0 and 1 of a 3-point sequence yields
the remove-shape outcome. -/
theorem delete_degenerate_removes_shape_witness :
    rangeSetWF [⟨0,1⟩] = true ∧
    deleteNodesObject
        ⟨ShapeKind.Polyline, [(0,0),(1,0),(2,0)], [], []⟩ [⟨0,1⟩]
      = DeleteOutcome.removeObject :=
  ⟨by decide,
    delete_degenerate_removes_shape
      ⟨ShapeKind.Polyline, [(0,0),(1,0),(2,0)], [], []⟩ [⟨0,1⟩]
      (by decide) (by decide) (by decide)⟩

/-! ### Helper lemmas for the split proofs -/

theorem padd_comm (p q : Point) : padd p q = padd q p := by
  simp only [padd, Prod.mk.injEq]
  constructor <;> ring

theorem qat_append_left {l M : List Point} {i : ℕ} (h : i < l.length) :
    qat (l ++ M) i = qat l i := by
  simp [qat, List.getD_eq_getElem?_getD, List.getElem?_append, h]

theorem qat_take {l : List Point} {i j : ℕ} (h : j < i) :
    qat (l.take i) j = qat l j := by
  simp [qat, List.getD_eq_getElem?_getD, List.getElem?_take, h]

theorem qat_eq_getElem {l : List Point} {i : ℕ} (h : i < l.length) :
    qat l i = l[i] := by
  simp [qat, List.getD_eq_getElem?_getD, List.getElem?_eq_getElem h]

theorem insertIdx_append_left (l M : List Point) (i : ℕ) (v : Point)
    (h : i ≤ l.length) :
    (l ++ M).insertIdx i v = l.insertIdx i v ++ M := by
  induction l generalizing i with
  | nil =>
    have : i = 0 := by simpa using h
    subst this
    simp [List.insertIdx_zero]
  | cons a t ih =>
    cases i with
    | zero => simp [List.insertIdx_zero]
    | succ m =>
      simp only [List.cons_append, List.insertIdx_succ_cons]
      rw [ih m (by simpa using h)]

theorem insertIdx_eq_take_cons_drop (l : List Point) (i : ℕ) (v : Point)
    (h : i ≤ l.length) :
    l.insertIdx i v = l.take i ++ v :: l.drop i := by
  induction l generalizing i with
  | nil =>
    have : i = 0 := by simpa using h
    subst this
    simp [List.insertIdx_zero]
  | cons a t ih =>
    cases i with
    | zero => simp [List.insertIdx_zero]
    | succ m =>
      simp only [List.insertIdx_succ_cons, List.take_succ_cons,
        List.drop_succ_cons, List.cons_append]
      rw [ih m (by simpa using h)]

theorem qat_range'_map_eq_drop (l : List Point) (a : ℕ) (h : a ≤ l.length) :
    (List.range' a (l.length - a)).map (qat l) = l.drop a := by
  apply List.ext_getElem
  · simp
  · intro i h1 h2
    simp only [List.getElem_map, List.getElem_range', Nat.one_mul,
      List.getElem_drop]
    have hi : a + i < l.length := by
      simp only [List.length_map, List.length_range'] at h1
      omega
    exact qat_eq_getElem hi

theorem flatMap_congr_mem {L : List ℕ} {f g : ℕ → List Point}
    (h : ∀ i ∈ L, f i = g i) : L.flatMap f = L.flatMap g := by
  induction L with
  | nil => rfl
  | cons a t ih =>
    simp only [List.flatMap_cons]
    rw [h a (List.mem_cons_self a t), ih fun i hi => h i (List.mem_cons_of_mem a hi)]

theorem flatMap_eq_map_of {L : List ℕ} {f : ℕ → List Point} {g : ℕ → Point}
    (h : ∀ i ∈ L, f i = [g i]) : L.flatMap f = L.map g := by
  induction L with
  | nil => rfl
  | cons a t ih =>
    simp only [List.flatMap_cons, List.map_cons]
    rw [h a (List.mem_cons_self a t), ih fun i hi => h i (List.mem_cons_of_mem a hi)]
    rfl

theorem range_split (n a : ℕ) (h : a ≤ n) :
    List.range n = List.range a ++ List.range' a (n - a) := by
  rw [List.range_eq_range', List.range_eq_range']
  have h1 := List.range'_append 0 a (n - a) 1
  simp only [Nat.one_mul, Nat.zero_add] at h1
  rw [h1, show n - a + a = n by omega]

/-! ### The inner split loop: locality and specification -/

theorem splitSteps_append (first k : ℕ) (l M : List Point)
    (h : first + k < l.length) :
    splitSteps first k (l ++ M) = splitSteps first k l ++ M := by
  induction k generalizing l with
  | zero => rfl
  | succ m ih =>
    simp only [splitSteps]
    rw [qat_append_left (show first + (m + 1) < l.length from h),
      qat_append_left (show first + (m + 1) - 1 < l.length by omega),
      insertIdx_append_left l M (first + (m + 1)) _ (by omega)]
    exact ih _ (by rw [List.length_insertIdx _ _ (by omega)]; omega)

/-- The per-index chunk of the forward-pass split specification. -/
def insertionChunk (l : List Point) (p : ℕ → Bool) (i : ℕ) : List Point :=
  (if p i then [pdiv (padd (qat l (i - 1)) (qat l i)) 2] else []) ++ [qat l i]

theorem splitSpec_eq_flatMap (poly : List Point) (rs : List Range) :
    splitSpec poly rs
      = (List.range poly.length).flatMap
          (insertionChunk poly (pairSelB rs)) := rfl

theorem splitSteps_spec (k first : ℕ) (l : List Point)
    (h : first + k < l.length) :
    splitSteps first k l
      = (List.range l.length).flatMap
          (insertionChunk l fun i =>
            decide (first < i) && decide (i ≤ first + k)) := by
  induction k generalizing l with
  | zero =>
    rw [splitSteps]
    have hp : ∀ i ∈ List.range l.length,
        insertionChunk l
            (fun i => decide (first < i) && decide (i ≤ first + 0)) i
          = [qat l i] := by
      intro i _
      rw [insertionChunk]
      have hfalse : (decide (first < i) && decide (i ≤ first + 0)) = false := by
        by_cases h1 : first < i
        · simp [show ¬(i ≤ first + 0) by omega]
        · simp [h1]
      rw [hfalse]
      simp
    rw [flatMap_eq_map_of hp, qat_range_eq_take l l.length le_rfl,
      List.take_length]
  | succ m ih =>
    simp only [splitSteps]
    have hi : first + (m + 1) ≤ l.length := by omega
    rw [insertIdx_eq_take_cons_drop l (first + (m + 1)) _ hi]
    rw [show (l.take (first + (m + 1))
          ++ pdiv (padd (qat l (first + (m + 1)))
              (qat l (first + (m + 1) - 1))) 2 :: l.drop (first + (m + 1)))
        = (l.take (first + (m + 1))
          ++ ([pdiv (padd (qat l (first + (m + 1)))
              (qat l (first + (m + 1) - 1))) 2] ++ l.drop (first + (m + 1))))
      by simp]
    have hlt : first + m < (l.take (first + (m + 1))).length := by
      rw [List.length_take]
      omega
    rw [splitSteps_append first m _ _ hlt, ih _ hlt]
    have htl : (l.take (first + (m + 1))).length = first + (m + 1) := by
      rw [List.length_take]; omega
    -- left side: chunks of the prefix agree with chunks of l below the cut
    have hpre : (List.range (l.take (first + (m + 1))).length).flatMap
          (insertionChunk (l.take (first + (m + 1))) fun i =>
            decide (first < i) && decide (i ≤ first + m))
        = (List.range (first + (m + 1))).flatMap
          (insertionChunk l fun i =>
            decide (first < i) && decide (i ≤ first + (m + 1))) := by
      rw [htl]
      apply flatMap_congr_mem
      intro i hmem
      rw [List.mem_range] at hmem
      rw [insertionChunk, insertionChunk]
      have hq1 : qat (l.take (first + (m + 1))) i = qat l i := qat_take hmem
      have hq2 : qat (l.take (first + (m + 1))) (i - 1) = qat l (i - 1) :=
        qat_take (by omega)
      have hpeq : (decide (first < i) && decide (i ≤ first + m))
          = (decide (first < i) && decide (i ≤ first + (m + 1))) := by
        have hd : decide (i ≤ first + m) = decide (i ≤ first + (m + 1)) :=
          decide_eq_decide.mpr (by omega)
        rw [hd]
      rw [hq1, hq2, hpeq]
    rw [hpre]
    -- right side: split the full range at the insertion position
    have hsplit : List.range l.length
        = List.range (first + (m + 1))
          ++ List.range' (first + (m + 1)) (l.length - (first + (m + 1))) :=
      range_split l.length (first + (m + 1)) (by omega)
    rw [hsplit, List.flatMap_append]
    congr 1
    -- the suffix: head chunk is the inserted midpoint plus the point,
    -- the rest are plain points
    have hlen' : l.length - (first + (m + 1))
        = (l.length - (first + (m + 1)) - 1) + 1 := by omega
    rw [hlen', List.range'_succ]
    simp only [List.flatMap_cons]
    have hhead : insertionChunk l
          (fun i => decide (first < i) && decide (i ≤ first + (m + 1)))
          (first + (m + 1))
        = [pdiv (padd (qat l (first + (m + 1)))
            (qat l (first + (m + 1) - 1))) 2, qat l (first + (m + 1))] := by
      rw [insertionChunk]
      have : (decide (first < first + (m + 1))
          && decide (first + (m + 1) ≤ first + (m + 1))) = true := by
        simp
      rw [this]
      simp only [if_true, List.singleton_append]
      rw [padd_comm (qat l (first + (m + 1) - 1)) (qat l (first + (m + 1)))]
    rw [hhead]
    have htail : (List.range' (first + (m + 1) + 1)
            (l.length - (first + (m + 1)) - 1)).flatMap
          (insertionChunk l fun i =>
            decide (first < i) && decide (i ≤ first + (m + 1)))
        = (List.range' (first + (m + 1) + 1)
            (l.length - (first + (m + 1) + 1))).map (qat l) := by
      rw [show l.length - (first + (m + 1)) - 1
          = l.length - (first + (m + 1) + 1) by omega]
      apply flatMap_eq_map_of
      intro i himem
      rw [List.mem_range'_1] at himem
      rw [insertionChunk]
      have hfalse : (decide (first < i) && decide (i ≤ first + (m + 1)))
          = false := by
        simp only [Bool.and_eq_false_iff, decide_eq_false_iff_not]
        right
        omega
      rw [hfalse]
      simp
    rw [htail, qat_range'_map_eq_drop l (first + (m + 1) + 1) (by omega)]
    rw [List.drop_eq_getElem_cons (show first + (m + 1) < l.length from h)]
    rw [qat_eq_getElem (show first + (m + 1) < l.length from h)]
    simp

/-! ### Pair-selection facts -/

theorem pairSelB_eq_false_of_le_first {rs : List Range} {i : ℕ}
    (h : ∀ r ∈ rs, i ≤ r.first) : pairSelB rs i = false := by
  rw [pairSelB, List.any_eq_false]
  intro r hr
  have := h r hr
  simp only [Bool.and_eq_true, decide_eq_true_eq, not_and]
  omega

theorem pairSelB_cons_high {f : Range} {rest : List Range} {i : ℕ}
    (h : f.last < i) : pairSelB (f :: rest) i = pairSelB rest i := by
  simp [pairSelB, List.any_cons, show ¬(i ≤ f.last) by omega]

theorem pairSelB_cons_low {f : Range} {rest : List Range} {i : ℕ}
    (hlow : ∀ r ∈ rest, i < r.first) :
    pairSelB (f :: rest) i
      = (decide (f.first < i) && decide (i ≤ f.last)) := by
  rw [pairSelB, List.any_cons]
  have h0 : (rest.any fun r => decide (r.first < i) && decide (i ≤ r.last))
      = false := by
    rw [List.any_eq_false]
    intro r hr
    have := hlow r hr
    simp only [Bool.and_eq_true, decide_eq_true_eq, not_and]
    omega
  rw [h0, Bool.or_false]

theorem splitSpec_nil (poly : List Point) : splitSpec poly [] = poly := by
  rw [splitSpec_eq_flatMap]
  have hp : ∀ i ∈ List.range poly.length,
      insertionChunk poly (pairSelB []) i = [qat poly i] := by
    intro i _
    rw [insertionChunk]
    simp [pairSelB]
  rw [flatMap_eq_map_of hp, qat_range_eq_take poly poly.length le_rfl,
    List.take_length]

/-! ### The descending range fold computes the forward-pass split spec -/

theorem splitFold_spec (poly : List Point) (rs : List Range)
    (hwf : rangeSetWF rs = true)
    (hb : rangesBounded rs poly.length = true) :
    rs.foldr (fun r res => splitSteps r.first (r.last - r.first) res) poly
      = splitSpec poly rs := by
  induction rs with
  | nil => exact (splitSpec_nil poly).symm
  | cons f rest ih =>
    obtain ⟨hfl, hwfr⟩ := rangeSetWF_cons hwf
    have hlow := rangeSetWF_lower hwf
    obtain ⟨hbf, hbr⟩ := rangesBounded_cons hb
    set n := poly.length with hn
    simp only [List.foldr_cons]
    rw [ih hwfr hbr]
    set Q : List Point :=
      (List.range' (f.last + 1) (n - (f.last + 1))).flatMap
        (insertionChunk poly (pairSelB rest)) with hQ
    have hrest : splitSpec poly rest = poly.take (f.last + 1) ++ Q := by
      rw [splitSpec_eq_flatMap, ← hn, range_split n (f.last + 1) (by omega),
        List.flatMap_append, hQ]
      congr 1
      have hsing : ∀ i ∈ List.range (f.last + 1),
          insertionChunk poly (pairSelB rest) i = [qat poly i] := by
        intro i hi
        rw [List.mem_range] at hi
        rw [insertionChunk]
        have hfalse : pairSelB rest i = false :=
          pairSelB_eq_false_of_le_first fun r hr => by
            have := hlow r hr; omega
        rw [hfalse]
        simp
      rw [flatMap_eq_map_of hsing,
        qat_range_eq_take poly (f.last + 1) (by omega)]
    rw [hrest]
    have htk : (poly.take (f.last + 1)).length = f.last + 1 := by
      rw [List.length_take]; omega
    have hkb : f.first + (f.last - f.first)
        < (poly.take (f.last + 1)).length := by rw [htk]; omega
    rw [splitSteps_append _ _ _ _ hkb, splitSteps_spec _ _ _ hkb]
    rw [splitSpec_eq_flatMap, ← hn, range_split n (f.last + 1) (by omega),
      List.flatMap_append]
    congr 1
    · rw [htk]
      apply flatMap_congr_mem
      intro i hi
      rw [List.mem_range] at hi
      rw [insertionChunk, insertionChunk]
      have hq1 : qat (poly.take (f.last + 1)) i = qat poly i := qat_take hi
      have hq2 : qat (poly.take (f.last + 1)) (i - 1) = qat poly (i - 1) :=
        qat_take (by omega)
      have hps : pairSelB (f :: rest) i
          = (decide (f.first < i) && decide (i ≤ f.last)) :=
        pairSelB_cons_low fun r hr => by have := hlow r hr; omega
      have hd : decide (i ≤ f.first + (f.last - f.first))
          = decide (i ≤ f.last) := decide_eq_decide.mpr (by omega)
      rw [hq1, hq2, hps, hd]
    · rw [hQ]
      apply flatMap_congr_mem
      intro i hi
      rw [List.mem_range'_1] at hi
      rw [insertionChunk, insertionChunk, pairSelB_cons_high (by omega)]

/-! ### C5: the per-range midpoint insertions -/

/-- C5: on an open sequence, `splitPolygonSegments` produces exactly the
forward-pass specification: every original point is kept and, for every
adjacent pair `(i-1, i)` strictly inside a selected range, the midpoint of
the two original points is inserted between them. -/
theorem split_open_inserts_midpoints (poly : List Point) (rs : List Range)
    (hwf : rangeSetWF rs = true)
    (hb : rangesBounded rs poly.length = true) :
    splitPolygonSegments poly rs false = splitSpec poly rs := by
  cases rs with
  | nil => exact (splitSpec_nil poly).symm
  | cons f rest =>
    simp only [splitPolygonSegments, Bool.false_eq_true, if_false]
    exact splitFold_spec poly (f :: rest) hwf hb

/-- Witness for C5: a 2-point open sequence with both indices selected
becomes 3 points, matching the forward-pass specification. -/
theorem split_open_inserts_midpoints_witness :
    rangeSetWF [⟨0,1⟩] = true ∧
    rangesBounded [⟨0,1⟩] 2 = true ∧
    splitPolygonSegments [(0,0),(10,0)] [⟨0,1⟩] false
      = splitSpec [(0,0),(10,0)] [⟨0,1⟩] ∧
    (splitPolygonSegments [(0,0),(10,0)] [⟨0,1⟩] false).length = 3 :=
  ⟨by decide, by decide,
    split_open_inserts_midpoints [(0,0),(10,0)] [⟨0,1⟩]
      (by decide) (by decide), by decide⟩

/-! ### C4: the seam midpoint for closed shapes -/

theorem splitFold_append (rs : List Range) (l M : List Point)
    (hwf : rangeSetWF rs = true)
    (hb : rangesBounded rs l.length = true) :
    rs.foldr (fun r res => splitSteps r.first (r.last - r.first) res)
        (l ++ M)
      = rs.foldr (fun r res => splitSteps r.first (r.last - r.first) res) l
        ++ M := by
  induction rs with
  | nil => rfl
  | cons f rest ih =>
    obtain ⟨hfl, hwfr⟩ := rangeSetWF_cons hwf
    obtain ⟨hbf, hbr⟩ := rangesBounded_cons hb
    simp only [List.foldr_cons]
    rw [ih hwfr hbr]
    apply splitSteps_append
    have := (sublist_splitFold rest l).length_le
    omega

/-- C4: on a closed sequence whose selection touches both ends,
`splitPolygonSegments` produces exactly the open-shape result with one
extra point appended: the midpoint of the sequence's first and last
points; on an open sequence no seam point is added (the right-hand side
is the open result itself). -/
theorem split_closed_appends_seam (poly : List Point) (f : Range)
    (rest : List Range)
    (hwf : rangeSetWF (f :: rest) = true)
    (hb : rangesBounded (f :: rest) poly.length = true)
    (h0 : f.first = 0) (hl : (rest.getLastD f).last = poly.length - 1) :
    splitPolygonSegments poly (f :: rest) true
      = splitPolygonSegments poly (f :: rest) false
        ++ [pdiv (padd (qat poly 0) (qat poly (poly.length - 1))) 2] := by
  simp only [splitPolygonSegments, Bool.false_eq_true, if_false, if_true]
  rw [if_pos (And.intro h0 hl)]
  exact splitFold_append (f :: rest) poly _ hwf hb

/-- Witness for C4: selecting all four corners of a closed square appends
the seam midpoint of the first and last corner. -/
theorem split_closed_appends_seam_witness :
    rangeSetWF [⟨0,3⟩] = true ∧
    rangesBounded [⟨0,3⟩] 4 = true ∧
    splitPolygonSegments [(0,0),(10,0),(10,10),(0,10)] [⟨0,3⟩] true
      = splitPolygonSegments [(0,0),(10,0),(10,10),(0,10)] [⟨0,3⟩] false
        ++ [pdiv (padd (qat [(0,0),(10,0),(10,10),(0,10)] 0)
            (qat [(0,0),(10,0),(10,10),(0,10)] 3)) 2] :=
  ⟨by decide, by decide,
    split_closed_appends_seam [(0,0),(10,0),(10,10),(0,10)] ⟨0,3⟩ []
      (by decide) (by decide) (by decide) (by decide)⟩

/-! ### More range-set structure -/

theorem rangeSetWF_le {rs : List Range} (h : rangeSetWF rs = true) :
    ∀ r ∈ rs, r.first ≤ r.last := by
  induction rs with
  | nil => intro r hr; cases hr
  | cons a t ih =>
    intro r hr
    obtain ⟨ha, ht⟩ := rangeSetWF_cons h
    rcases List.mem_cons.mp hr with hr | hr
    · subst hr; exact ha
    · exact ih ht r hr

theorem rangeSetWF_pairwise {rs : List Range} (h : rangeSetWF rs = true) :
    rs.Pairwise fun a b => a.last + 1 < b.first := by
  induction rs with
  | nil => exact List.Pairwise.nil
  | cons a t ih =>
    exact List.pairwise_cons.mpr
      ⟨rangeSetWF_lower h, ih (rangeSetWF_cons h).2⟩

theorem rangeSetWF_of_pairwise_le {rs : List Range}
    (hp : rs.Pairwise fun a b => a.last + 1 < b.first)
    (hle : ∀ r ∈ rs, r.first ≤ r.last) : rangeSetWF rs = true := by
  induction rs with
  | nil => rfl
  | cons a t ih =>
    have hp' := List.pairwise_cons.mp hp
    cases t with
    | nil =>
      simp only [rangeSetWF, decide_eq_true_eq]
      exact hle a (List.mem_cons_self a [])
    | cons b t' =>
      rw [rangeSetWF]
      simp only [Bool.and_eq_true, decide_eq_true_eq]
      exact ⟨⟨hle a (List.mem_cons_self a _),
          hp'.1 b (List.mem_cons_self b t')⟩,
        ih hp'.2 fun r hr => hle r (List.mem_cons_of_mem a hr)⟩

theorem sumLen_le {qs : List Range} {lo B : ℕ}
    (hwf : rangeSetWF qs = true)
    (hlo : ∀ r ∈ qs, lo ≤ r.first) (hB : ∀ r ∈ qs, r.last ≤ B) :
    (qs.map Range.length).sum ≤ B + 1 - lo := by
  induction qs generalizing lo with
  | nil => simp
  | cons q t ih =>
    obtain ⟨hql, hwf'⟩ := rangeSetWF_cons hwf
    have hlow := rangeSetWF_lower hwf
    have h1 : ((t.map Range.length).sum) ≤ B + 1 - (q.last + 2) :=
      ih hwf' (fun r hr => by have := hlow r hr; omega)
        (fun r hr => hB r (List.mem_cons_of_mem q hr))
    have h2 : lo ≤ q.first := hlo q (List.mem_cons_self q t)
    have h3 : q.last ≤ B := hB q (List.mem_cons_self q t)
    simp only [List.map_cons, List.sum_cons, Range.length]
    omega

/-! ### Index-wise behaviour of remove and replace -/

theorem qremove_length {l : List Point} {i c : ℕ} (h : i + c ≤ l.length) :
    (qremove l i c).length = l.length - c := by
  simp only [qremove, List.length_append, List.length_take,
    List.length_drop]
  omega

theorem qat_qremove_low {l : List Point} {i c j : ℕ} (h : j < i) :
    qat (qremove l i c) j = qat l j := by
  rw [qremove]
  simp only [qat, List.getD_eq_getElem?_getD, List.getElem?_append]
  by_cases hj : j < (List.take i l).length
  · rw [if_pos hj, List.getElem?_take, if_pos h]
  · rw [if_neg hj]
    rw [List.length_take] at hj
    have hlen : l.length ≤ j := by omega
    rw [List.getElem?_eq_none hlen, List.getElem?_eq_none]
    rw [List.length_drop, List.length_take]
    omega

theorem qat_qreplace_ne {l : List Point} {i j : ℕ} {v : Point}
    (h : i ≠ j) : qat (qreplace l i v) j = qat l j := by
  simp [qat, qreplace, List.getD_eq_getElem?_getD, List.getElem?_set_ne h]

theorem qat_qreplace_self {l : List Point} {i : ℕ} {v : Point}
    (h : i < l.length) : qat (qreplace l i v) i = v := by
  simp [qat, qreplace, List.getD_eq_getElem?_getD,
    List.getElem?_set_self h]

/-! ### The interior-range fold of joinPolygonNodes -/

theorem joinFold_length (polygon : List Point) (off B : ℕ)
    (qs : List Range) (res : List Point)
    (hwf : rangeSetWF qs = true)
    (hoff : ∀ r ∈ qs, off ≤ r.first)
    (hB : ∀ r ∈ qs, r.last ≤ B)
    (hres : B + 1 - off ≤ res.length) :
    (qs.foldr (joinRangeStep polygon off) res).length
      = res.length - ((qs.map fun r => r.length - 1).sum) := by
  induction qs with
  | nil => simp
  | cons q qs' ih =>
    obtain ⟨hql, hwf'⟩ := rangeSetWF_cons hwf
    have hlow := rangeSetWF_lower hwf
    simp only [List.foldr_cons]
    have hlen' : (qs'.foldr (joinRangeStep polygon off) res).length
        = res.length - ((qs'.map fun r => r.length - 1).sum) :=
      ih hwf' (fun r hr => hoff r (List.mem_cons_of_mem q hr))
        (fun r hr => hB r (List.mem_cons_of_mem q hr))
    have hsum : ((qs'.map Range.length).sum) ≤ B + 1 - (q.last + 2) :=
      sumLen_le hwf' (fun r hr => by have := hlow r hr; omega)
        (fun r hr => hB r (List.mem_cons_of_mem q hr))
    have hsum2 : ((qs'.map fun r => r.length - 1).sum)
        ≤ ((qs'.map Range.length).sum) :=
      List.sum_le_sum fun r _ => by omega
    have hq1 : off ≤ q.first := hoff q (List.mem_cons_self q qs')
    have hq2 : q.last ≤ B := hB q (List.mem_cons_self q qs')
    have hbound : q.last + 1 - off
        ≤ (qs'.foldr (joinRangeStep polygon off) res).length := by
      rw [hlen']
      omega
    simp only [joinRangeStep]
    rw [qreplace, List.length_set,
      qremove_length (show q.first + 1 - off + (q.length - 1)
        ≤ (qs'.foldr (joinRangeStep polygon off) res).length by
          rw [Range.length]; omega)]
    rw [hlen']
    simp only [List.map_cons, List.sum_cons]
    omega

theorem joinFold_qat_zero (polygon : List Point) (off : ℕ)
    (qs : List Range) (res : List Point)
    (hoff : ∀ r ∈ qs, off + 2 ≤ r.first) :
    qat (qs.foldr (joinRangeStep polygon off) res) 0 = qat res 0 := by
  induction qs with
  | nil => rfl
  | cons q qs' ih =>
    have h2 := hoff q (List.mem_cons_self q qs')
    simp only [List.foldr_cons, joinRangeStep]
    rw [qat_qreplace_ne (show q.first - off ≠ 0 by omega),
      qat_qremove_low (show 0 < q.first + 1 - off by omega)]
    exact ih fun r hr => hoff r (List.mem_cons_of_mem q hr)

theorem rangesBounded_iff {rs : List Range} {n : ℕ} :
    rangesBounded rs n = true ↔ ∀ r ∈ rs, r.last < n := by
  simp [rangesBounded]

theorem joinPolygonNodes_wrap_eq (poly : List Point) (f lst : Range)
    (mid : List Range) (hn : ¬ poly.length < 3)
    (h0 : f.first = 0) (hl : lst.last = poly.length - 1) :
    joinPolygonNodes poly (f :: (mid ++ [lst])) true
      = mid.foldr (joinRangeStep poly (f.length - 1))
          (qreplace
            (qremove (qremove poly lst.first lst.length) 1 (f.length - 1))
            0
            (pdiv (padd (psum (rangeReads poly 0 f))
                (psum (rangeReads poly 0 lst)))
              ((f.length + lst.length : ℕ) : ℚ))) := by
  obtain ⟨rest, hrest⟩ : ∃ rest, mid ++ [lst] = rest := ⟨_, rfl⟩
  rw [hrest, joinPolygonNodes, ← hrest, List.getLastD_concat, if_neg hn,
    if_pos ⟨h0, hl⟩, List.dropLast_concat]
  simp

/-! ### C1: the wrap-around merge of joinPolygonNodes -/

/-- C1: on a closed sequence of length at least 3, when the selection has
at least two ranges, the first starting at index 0 and the last ending at
the final index, `joinPolygonNodes` merges the two seam ranges: index 0 of
the result holds the arithmetic mean of the union of both ranges' points,
and the result is shorter by `firstRange.length + lastRange.length - 1`
from those two ranges (plus `length - 1` for every remaining interior
range). -/
theorem join_wrap_merge (poly : List Point) (f lst : Range)
    (mid : List Range)
    (hwf : rangeSetWF (f :: (mid ++ [lst])) = true)
    (hb : rangesBounded (f :: (mid ++ [lst])) poly.length = true)
    (h0 : f.first = 0) (hl : lst.last = poly.length - 1)
    (hn : 3 ≤ poly.length) :
    qat (joinPolygonNodes poly (f :: (mid ++ [lst])) true) 0
      = pdiv (padd (psum (rangeReads poly 0 f))
          (psum (rangeReads poly 0 lst)))
        ((f.length + lst.length : ℕ) : ℚ) ∧
    (joinPolygonNodes poly (f :: (mid ++ [lst])) true).length
        + (f.length + lst.length - 1)
        + ((mid.map fun r => r.length - 1).sum)
      = poly.length := by
  have hfle : f.first ≤ f.last := (rangeSetWF_cons hwf).1
  have hwfrest : rangeSetWF (mid ++ [lst]) = true := (rangeSetWF_cons hwf).2
  have hlow : ∀ r ∈ mid ++ [lst], f.last + 1 < r.first :=
    rangeSetWF_lower hwf
  have hflst : f.last + 1 < lst.first :=
    hlow lst (List.mem_append_right mid (List.mem_cons_self lst []))
  have hlstle : lst.first ≤ lst.last :=
    rangeSetWF_le hwfrest lst
      (List.mem_append_right mid (List.mem_cons_self lst []))
  have hble : ∀ r ∈ f :: (mid ++ [lst]), r.last < poly.length :=
    rangesBounded_iff.mp hb
  have hlstn : lst.last < poly.length :=
    hble lst (List.mem_cons_of_mem f
      (List.mem_append_right mid (List.mem_cons_self lst [])))
  have hlenlst : lst.first + lst.length = poly.length := by
    rw [Range.length]; omega
  have hflen : f.length = f.last + 1 := by
    rw [Range.length]; omega
  have hpw := rangeSetWF_pairwise hwfrest
  have hmidlst : ∀ r ∈ mid, r.last + 1 < lst.first := fun r hr =>
    (List.pairwise_append.mp hpw).2.2 r hr lst (List.mem_cons_self lst [])
  have hwfmid : rangeSetWF mid = true :=
    rangeSetWF_of_pairwise_le (List.pairwise_append.mp hpw).1
      fun r hr => rangeSetWF_le hwfrest r (List.mem_append_left [lst] hr)
  rw [joinPolygonNodes_wrap_eq poly f lst mid (by omega) h0 hl]
  have hN1 : (qremove poly lst.first lst.length).length
      = poly.length - lst.length := qremove_length (by omega)
  have hN2 : (qremove (qremove poly lst.first lst.length) 1
        (f.length - 1)).length
      = poly.length - lst.length - (f.length - 1) := by
    rw [qremove_length (by rw [hN1]; omega), hN1]
  have hN3 : (qreplace
        (qremove (qremove poly lst.first lst.length) 1 (f.length - 1)) 0
        (pdiv (padd (psum (rangeReads poly 0 f))
            (psum (rangeReads poly 0 lst)))
          ((f.length + lst.length : ℕ) : ℚ))).length
      = poly.length - lst.length - (f.length - 1) := by
    rw [qreplace, List.length_set, hN2]
  have hoff : ∀ r ∈ mid, (f.length - 1) + 2 ≤ r.first := by
    intro r hr
    have := hlow r (List.mem_append_left [lst] hr)
    omega
  constructor
  · rw [joinFold_qat_zero poly (f.length - 1) mid _ hoff]
    exact qat_qreplace_self (by rw [hN2]; omega)
  · rw [joinFold_length poly (f.length - 1) (lst.first - 2) mid _ hwfmid
      (fun r hr => by have := hoff r hr; omega)
      (fun r hr => by have := hmidlst r hr; omega)
      (by rw [hN3]; omega)]
    rw [hN3]
    have hsum : ((mid.map Range.length).sum)
        ≤ (lst.first - 2) + 1 - (f.last + 2) :=
      sumLen_le hwfmid
        (fun r hr => by have := hlow r (List.mem_append_left [lst] hr); omega)
        (fun r hr => by have := hmidlst r hr; omega)
    have hsum2 : ((mid.map fun r => r.length - 1).sum)
        ≤ ((mid.map Range.length).sum) :=
      List.sum_le_sum fun r _ => by omega
    omega

/-- Witness for C1: a closed 4-point loop with indices 0 and 3 selected
merges the two seam ranges into one averaged point at index 0, reducing
the length by 1. -/
theorem join_wrap_merge_witness :
    rangeSetWF [⟨0,0⟩,⟨3,3⟩] = true ∧
    rangesBounded [⟨0,0⟩,⟨3,3⟩] 4 = true ∧
    (qat (joinPolygonNodes [(0,0),(10,0),(10,10),(0,10)] [⟨0,0⟩,⟨3,3⟩] true) 0
        = pdiv (padd (psum (rangeReads [(0,0),(10,0),(10,10),(0,10)] 0 ⟨0,0⟩))
            (psum (rangeReads [(0,0),(10,0),(10,10),(0,10)] 0 ⟨3,3⟩)))
          (((⟨0,0⟩ : Range).length + (⟨3,3⟩ : Range).length : ℕ) : ℚ) ∧
      (joinPolygonNodes [(0,0),(10,0),(10,10),(0,10)] [⟨0,0⟩,⟨3,3⟩] true).length
          + ((⟨0,0⟩ : Range).length + (⟨3,3⟩ : Range).length - 1)
          + (([] : List Range).map fun r => r.length - 1).sum
        = 4) :=
  ⟨by decide, by decide,
    join_wrap_merge [(0,0),(10,0),(10,10),(0,10)] ⟨0,0⟩ ⟨3,3⟩ []
      (by decide) (by decide) (by decide) (by decide) (by decide)⟩

/-! ### C10: bounds-checked variants of the two algorithms

Every `at`/`remove`/`replace`/`insert` and every int subtraction
`i - indexOffset` is guarded; an out-of-bounds access (or a negative
index) yields `none`. -/

/-- Bounds-checked `QVector::at`. -/
def qatC (l : List Point) (i : ℕ) : Option Point := l[i]?

/-- Bounds-checked `QVector::remove(i, count)`. -/
def qremoveC (l : List Point) (i c : ℕ) : Option (List Point) :=
  if i + c ≤ l.length then some (qremove l i c) else none

/-- Bounds-checked `QVector::replace(i, v)`. -/
def qreplaceC (l : List Point) (i : ℕ) (v : Point) : Option (List Point) :=
  if i < l.length then some (qreplace l i v) else none

/-- Bounds-checked `QVector::insert(i, v)`. -/
def insertIdxC (l : List Point) (i : ℕ) (v : Point) : Option (List Point) :=
  if i ≤ l.length then some (l.insertIdx i v) else none

/-- Checked `int` subtraction `i - indexOffset`: a negative result would
be a negative index. -/
def subC (i off : ℕ) : Option ℕ := if off ≤ i then some (i - off) else none

/-- Checked reads `polygon.at(i - indexOffset)` for `i ∈ [first, last]`. -/
def rangeReadsC (polygon : List Point) (off : ℕ) (r : Range) :
    Option (List Point) :=
  (List.range r.length).mapM fun k => do
    let i ← subC (r.first + k) off
    qatC polygon i

/-- Checked version of `joinRangeStep`. -/
def joinRangeStepC (polygon : List Point) (off : ℕ) (r : Range)
    (acc : Option (List Point)) : Option (List Point) := do
  let result ← acc
  let reads ← rangeReadsC polygon off r
  let averagePoint := pdiv (psum reads) (r.length : ℚ)
  let i1 ← subC (r.first + 1) off
  let result1 ← qremoveC result i1 (r.length - 1)
  let i2 ← subC r.first off
  qreplaceC result1 i2 averagePoint

/-- Checked version of `joinPolygonNodes`. -/
def joinPolygonNodesC (polygon : List Point) (rs : List Range)
    (closed : Bool) : Option (List Point) :=
  match rs with
  | [] => some polygon
  | firstRange :: rest =>
    let n := polygon.length
    if n < 3 then some polygon
    else
      let lastRange := rest.getLastD firstRange
      if firstRange.first = 0 ∧ lastRange.last = n - 1 then
        if rest.isEmpty then some polygon
        else if closed then do
          let readsF ← rangeReadsC polygon 0 firstRange
          let readsL ← rangeReadsC polygon 0 lastRange
          let averagePoint :=
            pdiv (padd (psum readsF) (psum readsL))
              ((firstRange.length + lastRange.length : ℕ) : ℚ)
          let result ← qremoveC polygon lastRange.first lastRange.length
          let result1 ← qremoveC result 1 (firstRange.length - 1)
          let result2 ← qreplaceC result1 0 averagePoint
          rest.dropLast.foldr
            (joinRangeStepC polygon (firstRange.length - 1)) (some result2)
        else
          (firstRange :: rest).foldr (joinRangeStepC polygon 0)
            (some polygon)
      else
        (firstRange :: rest).foldr (joinRangeStepC polygon 0) (some polygon)

/-- Checked version of `splitSteps`. -/
def splitStepsC (first : ℕ) : ℕ → List Point → Option (List Point)
  | 0, result => some result
  | k + 1, result => do
      let i := first + (k + 1)
      let a ← qatC result i
      let b ← qatC result (i - 1)
      let result1 ← insertIdxC result i (pdiv (padd a b) 2)
      splitStepsC first k result1

/-- Checked version of `splitPolygonSegments` (the seam reads
`result.first()` and `result.last()` are checked too). -/
def splitPolygonSegmentsC (polygon : List Point) (rs : List Range)
    (closed : Bool) : Option (List Point) :=
  match rs with
  | [] => some polygon
  | firstRange :: rest =>
    let n := polygon.length
    let seamRes : Option (List Point) :=
      if closed then
        if firstRange.first = 0 ∧ (rest.getLastD firstRange).last = n - 1
        then do
          let a ← qatC polygon 0
          let b ← qatC polygon (n - 1)
          some (polygon ++ [pdiv (padd a b) 2])
        else some polygon
      else some polygon
    (firstRange :: rest).foldr
      (fun r acc => acc.bind fun l => splitStepsC r.first (r.last - r.first) l)
      seamRes

theorem qatC_eq_some {l : List Point} {i : ℕ} (h : i < l.length) :
    qatC l i = some (qat l i) := by
  rw [qatC, List.getElem?_eq_getElem h, qat_eq_getElem h]

theorem subC_eq_some {i off : ℕ} (h : off ≤ i) :
    subC i off = some (i - off) := by
  rw [subC, if_pos h]

theorem mapM_eq_some {l : List ℕ} {f : ℕ → Option Point} {g : ℕ → Point}
    (h : ∀ x ∈ l, f x = some (g x)) : l.mapM f = some (l.map g) := by
  induction l with
  | nil => rfl
  | cons a t ih =>
    rw [List.mapM_cons, h a (List.mem_cons_self a t),
      ih fun x hx => h x (List.mem_cons_of_mem a hx)]
    rfl

theorem rangeReadsC_eq_some {polygon : List Point} {off : ℕ} {r : Range}
    (hfl : r.first ≤ r.last) (hoff : off ≤ r.first)
    (hlt : r.last < polygon.length) :
    rangeReadsC polygon off r = some (rangeReads polygon off r) := by
  rw [rangeReadsC, rangeReads]
  apply mapM_eq_some
  intro k hk
  rw [List.mem_range, Range.length] at hk
  rw [subC_eq_some (by omega)]
  show qatC polygon (r.first + k - off) = some (qat polygon (r.first + k - off))
  exact qatC_eq_some (by omega)

theorem joinRangeStepC_eq (polygon : List Point) (off : ℕ) (q : Range)
    (res : List Point) (hq : q.first ≤ q.last) (hoff : off ≤ q.first)
    (hpoly : q.last < polygon.length)
    (hlen : q.last + 1 - off ≤ res.length) :
    joinRangeStepC polygon off q (some res)
      = some (joinRangeStep polygon off q res) := by
  rw [joinRangeStepC]
  simp only [Option.bind_eq_bind, Option.some_bind]
  rw [rangeReadsC_eq_some hq hoff hpoly]
  simp only [Option.some_bind]
  rw [subC_eq_some (show off ≤ q.first + 1 by omega)]
  simp only [Option.some_bind]
  rw [qremoveC, if_pos (show q.first + 1 - off + (q.length - 1) ≤ res.length
    by rw [Range.length]; omega)]
  simp only [Option.some_bind]
  rw [subC_eq_some hoff]
  simp only [Option.some_bind]
  rw [qreplaceC, if_pos (show q.first - off
      < (qremove res (q.first + 1 - off) (q.length - 1)).length by
    rw [qremove_length (by rw [Range.length]; omega), Range.length]
    omega)]
  rfl

theorem joinFoldC_eq (polygon : List Point) (off B : ℕ) (qs : List Range)
    (res : List Point) (hwf : rangeSetWF qs = true)
    (hoff : ∀ r ∈ qs, off ≤ r.first) (hB : ∀ r ∈ qs, r.last ≤ B)
    (hpoly : ∀ r ∈ qs, r.last < polygon.length)
    (hres : B + 1 - off ≤ res.length) :
    qs.foldr (joinRangeStepC polygon off) (some res)
      = some (qs.foldr (joinRangeStep polygon off) res) := by
  induction qs with
  | nil => rfl
  | cons q qs' ih =>
    obtain ⟨hql, hwf'⟩ := rangeSetWF_cons hwf
    have hlow := rangeSetWF_lower hwf
    simp only [List.foldr_cons]
    rw [ih hwf' (fun r hr => hoff r (List.mem_cons_of_mem q hr))
      (fun r hr => hB r (List.mem_cons_of_mem q hr))
      (fun r hr => hpoly r (List.mem_cons_of_mem q hr))]
    apply joinRangeStepC_eq polygon off q _ hql
      (hoff q (List.mem_cons_self q qs'))
      (hpoly q (List.mem_cons_self q qs'))
    rw [joinFold_length polygon off B qs' res hwf'
      (fun r hr => hoff r (List.mem_cons_of_mem q hr))
      (fun r hr => hB r (List.mem_cons_of_mem q hr)) hres]
    have hsum : ((qs'.map Range.length).sum) ≤ B + 1 - (q.last + 2) :=
      sumLen_le hwf' (fun r hr => by have := hlow r hr; omega)
        (fun r hr => hB r (List.mem_cons_of_mem q hr))
    have hsum2 : ((qs'.map fun r => r.length - 1).sum)
        ≤ ((qs'.map Range.length).sum) :=
      List.sum_le_sum fun r _ => by omega
    have hq1 : off ≤ q.first := hoff q (List.mem_cons_self q qs')
    have hq2 : q.last ≤ B := hB q (List.mem_cons_self q qs')
    omega

theorem splitStepsC_eq (first : ℕ) (m : ℕ) (res : List Point)
    (h : first + m < res.length ∨ m = 0) :
    splitStepsC first m res = some (splitSteps first m res) := by
  induction m generalizing res with
  | zero => rfl
  | succ k ih =>
    have hlt : first + (k + 1) < res.length := by
      rcases h with h | h
      · exact h
      · cases h
    rw [splitStepsC]
    conv_rhs => rw [splitSteps]
    simp only [Option.bind_eq_bind]
    rw [qatC_eq_some hlt]
    simp only [Option.some_bind]
    rw [qatC_eq_some (show first + (k + 1) - 1 < res.length by omega)]
    simp only [Option.some_bind]
    rw [insertIdxC, if_pos (show first + (k + 1) ≤ res.length by omega)]
    simp only [Option.some_bind]
    apply ih
    left
    rw [List.length_insertIdx _ _ (by omega)]
    omega

theorem splitFoldC_eq (rs : List Range) (res : List Point)
    (hwf : rangeSetWF rs = true)
    (hb : ∀ r ∈ rs, r.last < res.length) :
    rs.foldr (fun r acc => acc.bind fun l =>
        splitStepsC r.first (r.last - r.first) l) (some res)
      = some (rs.foldr (fun r acc =>
          splitSteps r.first (r.last - r.first) acc) res) := by
  induction rs with
  | nil => rfl
  | cons f rest ih =>
    obtain ⟨hfl, hwf'⟩ := rangeSetWF_cons hwf
    simp only [List.foldr_cons]
    rw [ih hwf' (fun r hr => hb r (List.mem_cons_of_mem f hr)),
      Option.some_bind]
    apply splitStepsC_eq
    left
    have h1 := (sublist_splitFold rest res).length_le
    have h2 := hb f (List.mem_cons_self f rest)
    omega

theorem joinPolygonNodesC_wrap_eq (poly : List Point) (f lst : Range)
    (mid : List Range) (hn : ¬ poly.length < 3)
    (h0 : f.first = 0) (hl : lst.last = poly.length - 1) :
    joinPolygonNodesC poly (f :: (mid ++ [lst])) true
      = (do
          let readsF ← rangeReadsC poly 0 f
          let readsL ← rangeReadsC poly 0 lst
          let averagePoint := pdiv (padd (psum readsF) (psum readsL))
            ((f.length + lst.length : ℕ) : ℚ)
          let result ← qremoveC poly lst.first lst.length
          let result1 ← qremoveC result 1 (f.length - 1)
          let result2 ← qreplaceC result1 0 averagePoint
          mid.foldr (joinRangeStepC poly (f.length - 1)) (some result2)) := by
  obtain ⟨rest, hrest⟩ : ∃ rest, mid ++ [lst] = rest := ⟨_, rfl⟩
  rw [hrest, joinPolygonNodesC, ← hrest, List.getLastD_concat, if_neg hn,
    if_pos ⟨h0, hl⟩, List.dropLast_concat]
  simp

/-- C10: for a well-formed, in-bounds, non-empty Range-Set, every point
access performed by `joinPolygonNodes` (for sequences of at least 3
points, as join requires) and by `splitPolygonSegments` (for sequences of
any length) — including the reads at `i - indexOffset` after a wrap-around
merge and the seam-midpoint reads of the first and last element — is in
bounds, and the backward iteration over the non-empty set is well-defined:
the fully bounds-checked variants of both functions succeed and return
exactly the unchecked results. -/
theorem accesses_in_bounds (poly : List Point) (rs : List Range)
    (closed : Bool) (hwf : rangeSetWF rs = true)
    (hb : rangesBounded rs poly.length = true)
    (hne : rs ≠ []) :
    (3 ≤ poly.length →
      joinPolygonNodesC poly rs closed
        = some (joinPolygonNodes poly rs closed)) ∧
    splitPolygonSegmentsC poly rs closed
        = some (splitPolygonSegments poly rs closed) := by
  have hble := rangesBounded_iff.mp hb
  constructor
  · intro hn
    cases rs with
    | nil => exact absurd rfl hne
    | cons f rest =>
      have hn3 : ¬ poly.length < 3 := by omega
      simp only [joinPolygonNodesC, joinPolygonNodes]
      rw [if_neg hn3, if_neg hn3]
      by_cases hwrap : f.first = 0
          ∧ (rest.getLastD f).last = poly.length - 1
      · rw [if_pos hwrap, if_pos hwrap]
        by_cases hre : rest.isEmpty = true
        · rw [if_pos hre, if_pos hre]
        · rw [if_neg hre, if_neg hre]
          cases closed with
          | false =>
            rw [if_neg (by simp), if_neg (by simp)]
            exact joinFoldC_eq poly 0 (poly.length - 1) (f :: rest) poly hwf
              (fun r _ => Nat.zero_le r.first)
              (fun r hr => by have := hble r hr; omega)
              hble (by omega)
          | true =>
            rw [if_pos rfl, if_pos rfl]
            obtain ⟨mid, lst, hrest⟩ :
                ∃ mid lst, rest = mid ++ [lst] := by
              cases hrest2 : rest with
              | nil => rw [hrest2] at hre; exact absurd rfl hre
              | cons a t =>
                obtain ⟨mid, lst, hml⟩ := (a :: t).eq_nil_or_concat.resolve_left
                  (by simp)
                exact ⟨mid, lst, by rw [hml, List.concat_eq_append]⟩
            subst hrest
            rw [List.getLastD_concat] at hwrap
            obtain ⟨h0, hl⟩ := hwrap
            rw [List.getLastD_concat, List.dropLast_concat]
            have hfle : f.first ≤ f.last := (rangeSetWF_cons hwf).1
            have hwfrest : rangeSetWF (mid ++ [lst]) = true :=
              (rangeSetWF_cons hwf).2
            have hlow : ∀ r ∈ mid ++ [lst], f.last + 1 < r.first :=
              rangeSetWF_lower hwf
            have hflst : f.last + 1 < lst.first :=
              hlow lst (List.mem_append_right mid (List.mem_cons_self lst []))
            have hlstle : lst.first ≤ lst.last :=
              rangeSetWF_le hwfrest lst
                (List.mem_append_right mid (List.mem_cons_self lst []))
            have hlstn : lst.last < poly.length :=
              hble lst (List.mem_cons_of_mem f
                (List.mem_append_right mid (List.mem_cons_self lst [])))
            have hfn : f.last < poly.length :=
              hble f (List.mem_cons_self f _)
            have hlenlst : lst.first + lst.length = poly.length := by
              rw [Range.length]; omega
            have hflen : f.length = f.last + 1 := by
              rw [Range.length]; omega
            have hpw := rangeSetWF_pairwise hwfrest
            have hmidlst : ∀ r ∈ mid, r.last + 1 < lst.first := fun r hr =>
              (List.pairwise_append.mp hpw).2.2 r hr lst
                (List.mem_cons_self lst [])
            have hwfmid : rangeSetWF mid = true :=
              rangeSetWF_of_pairwise_le (List.pairwise_append.mp hpw).1
                fun r hr =>
                  rangeSetWF_le hwfrest r (List.mem_append_left [lst] hr)
            have hN1 : (qremove poly lst.first lst.length).length
                = poly.length - lst.length := qremove_length (by omega)
            have hN2 : (qremove (qremove poly lst.first lst.length) 1
                  (f.length - 1)).length
                = poly.length - lst.length - (f.length - 1) := by
              rw [qremove_length (by rw [hN1]; omega), hN1]
            rw [rangeReadsC_eq_some hfle (Nat.zero_le f.first) hfn]
            simp only [Option.bind_eq_bind, Option.some_bind]
            rw [rangeReadsC_eq_some hlstle (Nat.zero_le lst.first) hlstn]
            simp only [Option.some_bind]
            rw [qremoveC, if_pos (show lst.first + lst.length ≤ poly.length
              by omega)]
            simp only [Option.some_bind]
            rw [qremoveC, if_pos (show 1 + (f.length - 1)
                ≤ (qremove poly lst.first lst.length).length by
              rw [hN1]; omega)]
            simp only [Option.some_bind]
            rw [qreplaceC, if_pos (show 0 < (qremove
                (qremove poly lst.first lst.length) 1
                (f.length - 1)).length by rw [hN2]; omega)]
            simp only [Option.some_bind]
            exact joinFoldC_eq poly (f.length - 1) (lst.first - 2) mid _
              hwfmid
              (fun r hr => by
                have := hlow r (List.mem_append_left [lst] hr); omega)
              (fun r hr => by have := hmidlst r hr; omega)
              (fun r hr => hble r (List.mem_cons_of_mem f
                (List.mem_append_left [lst] hr)))
              (by rw [qreplace, List.length_set, hN2]; omega)
      · rw [if_neg hwrap, if_neg hwrap]
        exact joinFoldC_eq poly 0 (poly.length - 1) (f :: rest) poly hwf
          (fun r _ => Nat.zero_le r.first)
          (fun r hr => by have := hble r hr; omega)
          hble (by omega)
  · cases rs with
    | nil => exact absurd rfl hne
    | cons f rest =>
      have hfb : f.last < poly.length :=
        hble f (List.mem_cons_self f rest)
      simp only [splitPolygonSegmentsC, splitPolygonSegments]
      cases closed with
      | false =>
        rw [if_neg (by simp), if_neg (by simp)]
        exact splitFoldC_eq (f :: rest) poly hwf hble
      | true =>
        rw [if_pos rfl, if_pos rfl]
        by_cases hwrap : f.first = 0
            ∧ (rest.getLastD f).last = poly.length - 1
        · rw [if_pos hwrap, if_pos hwrap]
          rw [qatC_eq_some (show (0:ℕ) < poly.length by omega)]
          simp only [Option.bind_eq_bind, Option.some_bind]
          rw [qatC_eq_some (show poly.length - 1 < poly.length by omega)]
          simp only [Option.some_bind]
          apply splitFoldC_eq (f :: rest) _ hwf
          intro r hr
          rw [List.length_append]
          have := hble r hr
          simp only [List.length_cons, List.length_nil]
          omega
        · rw [if_neg hwrap, if_neg hwrap]
          exact splitFoldC_eq (f :: rest) poly hwf hble

/-- Witness for C10 on a closed 7-point loop with three ranges (wrap-around
merge plus an interior range for join, seam midpoint for split), and on
the open 2-point sequence with both indices selected, whose split-side
bounds safety holds with no length hypothesis: all checked runs succeed. -/
theorem accesses_in_bounds_witness :
    rangeSetWF [⟨0,1⟩,⟨3,4⟩,⟨6,6⟩] = true ∧
    rangesBounded [⟨0,1⟩,⟨3,4⟩,⟨6,6⟩] 7 = true ∧
    3 ≤ 7 ∧
    (joinPolygonNodesC [(0,0),(1,0),(2,0),(3,0),(4,0),(5,0),(6,0)]
          [⟨0,1⟩,⟨3,4⟩,⟨6,6⟩] true
        = some (joinPolygonNodes [(0,0),(1,0),(2,0),(3,0),(4,0),(5,0),(6,0)]
            [⟨0,1⟩,⟨3,4⟩,⟨6,6⟩] true) ∧
      splitPolygonSegmentsC [(0,0),(1,0),(2,0),(3,0),(4,0),(5,0),(6,0)]
          [⟨0,1⟩,⟨3,4⟩,⟨6,6⟩] true
        = some (splitPolygonSegments
            [(0,0),(1,0),(2,0),(3,0),(4,0),(5,0),(6,0)]
            [⟨0,1⟩,⟨3,4⟩,⟨6,6⟩] true)) ∧
    rangeSetWF [⟨0,1⟩] = true ∧
    rangesBounded [⟨0,1⟩] 2 = true ∧
    splitPolygonSegmentsC [(0,0),(10,0)] [⟨0,1⟩] false
      = some (splitPolygonSegments [(0,0),(10,0)] [⟨0,1⟩] false) :=
  ⟨by decide, by decide, by decide,
    ⟨(accesses_in_bounds [(0,0),(1,0),(2,0),(3,0),(4,0),(5,0),(6,0)]
        [⟨0,1⟩,⟨3,4⟩,⟨6,6⟩] true (by decide) (by decide) (by decide)).1
      (by decide),
     (accesses_in_bounds [(0,0),(1,0),(2,0),(3,0),(4,0),(5,0),(6,0)]
        [⟨0,1⟩,⟨3,4⟩,⟨6,6⟩] true (by decide) (by decide) (by decide)).2⟩,
    by decide, by decide,
    (accesses_in_bounds [(0,0),(10,0)] [⟨0,1⟩] false
      (by decide) (by decide) (by decide)).2⟩
